import Mathlib

/-!
Verification of the categorical-variable summarizer and the ordinal-encoding
helper of the notebook src/notebooks/model_performance.ipynb, against the
repository specification.

The notebook defines two reusable functions:

* cat_var(df, cols): for each column name in cols, reads df[col].unique()
  (the distinct raw values of the column, in order of first appearance,
  with no null handling), records the column name, the number of unique
  values, and the unique values themselves; collects these rows into a
  frame and sorts it by "number_of_possible_values" descending, resetting
  the index.

* ordinal_encoding(x): returns 27 if x is the missing-marker character,
  and ord(x) - 96 otherwise.

Modelling notes.  A table is an ordered association list of named columns
over an arbitrary value type with decidable equality (the raw values of the
data files are strings; distinctness in the source is raw equality, which
the decidable equality models).  Column lookup df[col] returns the first
column with the given label, and is None (a KeyError in the source) when
the label is absent; cat_var therefore returns an Option, none modelling
the KeyError escaping the loop with no partial result.

The sort in the source is sort_values(by=..., ascending=False) with the
default kind.  pandas computes a descending sort through nargsort, which
reverses both the key column and the index before taking the ascending
argsort and reverses the resulting indexer after it; with a stable
underlying kernel (an insertion sort on a frame of this size) the two
reversals cancel on ties, so the descending sort is stable with respect to
input order: rows with equal counts keep their input order.  The faithful
model is therefore a stable insertion sort by the descending-count
relation, which places each row before the first earlier-sorted row of
strictly smaller count and after all rows of greater or equal count.
-/

/-- A table: an ordered collection of named columns, each holding a list of
raw values.  Models the pandas frame as cat_var reads it. -/
def Table (α : Type) : Type := List (String × List α)

/-- Column lookup, modelling df[col]: the first column labelled c, or none
when no column has that label (a KeyError in the source). -/
def colGet {α : Type} (df : Table α) (c : String) : Option (List α) :=
  match df with
  | [] => none
  | (n, v) :: rest => if n = c then some v else colGet rest c

/-- Accumulator for unique: keeps the elements of the input not yet seen,
in order of first appearance. -/
def uniqueAux {α : Type} [DecidableEq α] (seen : List α) : List α → List α
  | [] => []
  | x :: xs => if x ∈ seen then uniqueAux seen xs else x :: uniqueAux (x :: seen) xs

/-- Models pandas Series.unique on a column: the distinct raw values in
order of first appearance, each kept once, with no null handling (a
missing-marker encoding present in the raw data is an ordinary value). -/
def unique {α : Type} [DecidableEq α] (xs : List α) : List α :=
  uniqueAux [] xs

/-- One row of the frame cat_var builds: the dict
with keys "categorical_variable", "number_of_possible_values", "values". -/
structure CatRow (α : Type) where
  categorical_variable : String
  number_of_possible_values : Nat
  values : List α
deriving DecidableEq

/-- The sort key relation of sort_values(by="number_of_possible_values",
ascending=False): descending comparison of the count fields. -/
def rowGe {α : Type} (a b : CatRow α) : Prop :=
  b.number_of_possible_values ≤ a.number_of_possible_values

instance {α : Type} : DecidableRel (@rowGe α) :=
  fun a b => Nat.decLe b.number_of_possible_values a.number_of_possible_values

instance {α : Type} : IsTotal (CatRow α) rowGe :=
  ⟨fun a b => (Nat.le_total b.number_of_possible_values a.number_of_possible_values)⟩

instance {α : Type} : IsTrans (CatRow α) rowGe :=
  ⟨fun _ _ _ hab hbc => Nat.le_trans hbc hab⟩

/-- The loop body of cat_var: for each requested column, look it up, take
its unique values, and build the row dict; the whole computation is none as
soon as one lookup raises (no partial result survives the KeyError). -/
def buildRows {α : Type} [DecidableEq α] (df : Table α) : List String → Option (List (CatRow α))
  | [] => some []
  | c :: cs =>
    match colGet df c with
    | none => none
    | some v =>
      (buildRows df cs).map
        (fun rs => { categorical_variable := c,
                     number_of_possible_values := (unique v).length,
                     values := unique v } :: rs)

/-- The summarizer cat_var(df, cols): build one row per requested column,
then sort by count descending.  The descending sort is the pandas one,
which is stable with respect to input order (nargsort reverses key and
index before the stable ascending argsort and the indexer after it, so the
reversals cancel on ties): a stable insertion sort by the descending-count
relation (reset_index(drop=True) only renumbers and has no further
effect). -/
def cat_var {α : Type} [DecidableEq α] (df : Table α) (cols : List String) :
    Option (List (CatRow α)) :=
  (buildRows df cols).map (fun rs => List.insertionSort rowGe rs)

/-- A call of cat_var in explicit state-passing form: the state is the pair
of caller-owned inputs (df, cols).  Every operation in the body reads but
never writes them: df[col] and .unique() are reads, the append goes to a
fresh local list, pd.DataFrame builds a fresh frame, and sort_values and
reset_index(drop=True) return new frames (the local name df is rebound,
the argument object is untouched).  The post-state is therefore the
pre-state unchanged, and the result is produced fresh from it. -/
def cat_var_call {α : Type} [DecidableEq α] (df : Table α) (cols : List String) :
    (Table α × List String) × Option (List (CatRow α)) :=
  ((df, cols), cat_var df cols)

/-- The helper ordinal_encoding(x): 27 for the missing marker, ord(x) - 96
otherwise (Python ord is the code point, exact integer arithmetic). -/
def ordinal_encoding (x : Char) : Int :=
  if x = '?' then 27 else (x.toNat : Int) - 96

/-- Concrete table of the specification's example scenario: column odor
with raw values n, f, n, y and column bruises with raw values t, f. -/
def dfEx : Table Char := [("odor", ['n', 'f', 'n', 'y']), ("bruises", ['t', 'f'])]

/-- The requested columns of the example scenario. -/
def colsEx : List String := ["odor", "bruises"]

/-- The summary cat_var produces for the example scenario. -/
def rsEx : List (CatRow Char) :=
  [{ categorical_variable := "odor", number_of_possible_values := 3,
     values := ['n', 'f', 'y'] },
   { categorical_variable := "bruises", number_of_possible_values := 2,
     values := ['t', 'f'] }]

theorem mem_uniqueAux {α : Type} [DecidableEq α] (l : List α) :
    ∀ (seen : List α) (a : α), a ∈ uniqueAux seen l ↔ a ∈ l ∧ a ∉ seen := by
  induction l with
  | nil => intro seen a; simp [uniqueAux]
  | cons x xs ih =>
    intro seen a
    by_cases hx : x ∈ seen
    · simp only [uniqueAux, if_pos hx, ih, List.mem_cons]
      constructor
      · rintro ⟨ha, hs⟩; exact ⟨Or.inr ha, hs⟩
      · rintro ⟨rfl | ha, hs⟩
        · exact absurd hx hs
        · exact ⟨ha, hs⟩
    · simp only [uniqueAux, if_neg hx, List.mem_cons, ih, not_or]
      constructor
      · rintro (rfl | ⟨ha, _, hs⟩)
        · exact ⟨Or.inl rfl, hx⟩
        · exact ⟨Or.inr ha, hs⟩
      · rintro ⟨rfl | ha, hs⟩
        · exact Or.inl rfl
        · rcases eq_or_ne a x with rfl | hax
          · exact Or.inl rfl
          · exact Or.inr ⟨ha, hax, hs⟩

theorem nodup_uniqueAux {α : Type} [DecidableEq α] (l : List α) :
    ∀ seen : List α, (uniqueAux seen l).Nodup := by
  induction l with
  | nil => intro seen; simp [uniqueAux]
  | cons x xs ih =>
    intro seen
    by_cases hx : x ∈ seen
    · simpa [uniqueAux, if_pos hx] using ih seen
    · simp only [uniqueAux, if_neg hx, List.nodup_cons]
      refine ⟨?_, ih (x :: seen)⟩
      intro hmem
      exact ((mem_uniqueAux xs (x :: seen) x).mp hmem).2 (List.mem_cons_self x seen)

theorem mem_unique {α : Type} [DecidableEq α] (l : List α) (a : α) :
    a ∈ unique l ↔ a ∈ l := by
  simp [unique, mem_uniqueAux]

theorem nodup_unique {α : Type} [DecidableEq α] (l : List α) : (unique l).Nodup :=
  nodup_uniqueAux l []

theorem length_unique_eq_card {α : Type} [DecidableEq α] (l : List α) :
    (unique l).length = l.toFinset.card := by
  have h1 : (unique l).toFinset = l.toFinset := by
    ext a
    simp [List.mem_toFinset, mem_unique]
  calc (unique l).length = (unique l).toFinset.card :=
        (List.toFinset_card_of_nodup (nodup_unique l)).symm
    _ = l.toFinset.card := by rw [h1]

/-! Helper lemmas about buildRows. -/

theorem buildRows_length {α : Type} [DecidableEq α] (df : Table α) :
    ∀ (cols : List String) (rs : List (CatRow α)),
      buildRows df cols = some rs → rs.length = cols.length := by
  intro cols
  induction cols with
  | nil =>
    intro rs h
    simp only [buildRows, Option.some.injEq] at h
    subst h
    rfl
  | cons c cs ih =>
    intro rs h
    simp only [buildRows] at h
    cases hv : colGet df c with
    | none => rw [hv] at h; simp at h
    | some v =>
      rw [hv] at h
      cases hb : buildRows df cs with
      | none => rw [hb] at h; simp at h
      | some rs0 =>
        rw [hb] at h
        simp only [Option.map_some', Option.some.injEq] at h
        subst h
        simp [List.length_cons, ih rs0 hb]

theorem buildRows_mem {α : Type} [DecidableEq α] (df : Table α) :
    ∀ (cols : List String) (rs : List (CatRow α)),
      buildRows df cols = some rs → ∀ r ∈ rs,
        r.categorical_variable ∈ cols ∧
        ∃ v, colGet df r.categorical_variable = some v ∧
          r.number_of_possible_values = (unique v).length ∧ r.values = unique v := by
  intro cols
  induction cols with
  | nil =>
    intro rs h
    simp only [buildRows, Option.some.injEq] at h
    subst h
    intro r hr
    exact absurd hr (List.not_mem_nil r)
  | cons c cs ih =>
    intro rs h r hr
    simp only [buildRows] at h
    cases hv : colGet df c with
    | none => rw [hv] at h; simp at h
    | some v =>
      rw [hv] at h
      cases hb : buildRows df cs with
      | none => rw [hb] at h; simp at h
      | some rs0 =>
        rw [hb] at h
        simp only [Option.map_some', Option.some.injEq] at h
        subst h
        rcases List.mem_cons.mp hr with rfl | hr0
        · exact ⟨List.mem_cons_self c cs, v, hv, rfl, rfl⟩
        · rcases ih rs0 hb r hr0 with ⟨hc, hrest⟩
          exact ⟨List.mem_cons_of_mem c hc, hrest⟩

theorem buildRows_exists_row {α : Type} [DecidableEq α] (df : Table α) :
    ∀ (cols : List String) (rs : List (CatRow α)),
      buildRows df cols = some rs → ∀ c ∈ cols, ∀ v, colGet df c = some v →
        ({ categorical_variable := c,
           number_of_possible_values := (unique v).length,
           values := unique v } : CatRow α) ∈ rs := by
  intro cols
  induction cols with
  | nil => intro rs _ c hc; exact absurd hc (List.not_mem_nil c)
  | cons c0 cs ih =>
    intro rs h c hc v hv
    simp only [buildRows] at h
    cases hv0 : colGet df c0 with
    | none => rw [hv0] at h; simp at h
    | some v0 =>
      rw [hv0] at h
      cases hb : buildRows df cs with
      | none => rw [hb] at h; simp at h
      | some rs0 =>
        rw [hb] at h
        simp only [Option.map_some', Option.some.injEq] at h
        subst h
        rcases List.mem_cons.mp hc with rfl | hc0
        · have : v0 = v := by rw [hv0] at hv; exact Option.some.inj hv
          subst this
          exact List.mem_cons_self _ _
        · exact List.mem_cons_of_mem _ (ih rs0 hb c hc0 v hv)

theorem buildRows_none_of_missing {α : Type} [DecidableEq α] (df : Table α) :
    ∀ (cols : List String) (c : String), c ∈ cols → colGet df c = none →
      buildRows df cols = none := by
  intro cols
  induction cols with
  | nil => intro c hc; exact absurd hc (List.not_mem_nil c)
  | cons c0 cs ih =>
    intro c hc hnone
    rcases List.mem_cons.mp hc with rfl | hc0
    · simp [buildRows, hnone]
    · simp only [buildRows]
      cases hv0 : colGet df c0 with
      | none => rfl
      | some v0 => rw [ih c hc0 hnone]; rfl

theorem buildRows_isSome {α : Type} [DecidableEq α] (df : Table α) :
    ∀ cols : List String, (∀ c ∈ cols, (colGet df c).isSome = true) →
      ∃ rs, buildRows df cols = some rs := by
  intro cols
  induction cols with
  | nil => intro _; exact ⟨[], rfl⟩
  | cons c0 cs ih =>
    intro h
    have h0 : (colGet df c0).isSome = true := h c0 (List.mem_cons_self c0 cs)
    rcases Option.isSome_iff_exists.mp h0 with ⟨v0, hv0⟩
    rcases ih (fun c hc => h c (List.mem_cons_of_mem c0 hc)) with ⟨rs0, hrs0⟩
    refine ⟨{ categorical_variable := c0,
              number_of_possible_values := (unique v0).length,
              values := unique v0 } :: rs0, ?_⟩
    simp [buildRows, hv0, hrs0]

/-! Stability of the descending insertion sort with respect to the count
field: filtering the sorted list down to the rows of one fixed count gives
exactly the rows of that count of the input, in input order. -/

theorem cat_var_eq_some {α : Type} [DecidableEq α] {df : Table α}
    {cols : List String} {rs : List (CatRow α)} (h : cat_var df cols = some rs) :
    ∃ rs0, buildRows df cols = some rs0 ∧
      rs = List.insertionSort rowGe rs0 := by
  rcases Option.map_eq_some'.mp h with ⟨rs0, h1, h2⟩
  exact ⟨rs0, h1, h2.symm⟩

theorem mem_sorted_iff {α : Type} (rs0 : List (CatRow α)) (r : CatRow α) :
    r ∈ List.insertionSort rowGe rs0 ↔ r ∈ rs0 :=
  (List.perm_insertionSort rowGe rs0).mem_iff

/-! Claim theorems. -/

/-- C1: for every table and every list of column names all of which are
present in the table, cat_var returns a sequence with exactly one row per
input column name: its length equals the length of the column list, and no
rows are added or dropped. -/
theorem cat_var_one_row_per_column {α : Type} [DecidableEq α]
    (df : Table α) (cols : List String)
    (h : ∀ c ∈ cols, (colGet df c).isSome = true) :
    ∃ rs, cat_var df cols = some rs ∧ rs.length = cols.length := by
  rcases buildRows_isSome df cols h with ⟨rs0, hrs0⟩
  refine ⟨List.insertionSort rowGe rs0, ?_, ?_⟩
  · simp [cat_var, hrs0]
  · rw [(List.perm_insertionSort rowGe rs0).length_eq]
    exact buildRows_length df cols rs0 hrs0

/-- Witness for C1 at the specification's example scenario. -/
theorem cat_var_one_row_per_column_witness :
    ∃ rs, cat_var dfEx colsEx = some rs ∧ rs.length = colsEx.length :=
  cat_var_one_row_per_column dfEx colsEx (by decide)

/-- C2: the number_of_possible_values reported by cat_var for a requested
column equals the exact number of distinct raw values appearing in that
column (distinctness is raw decidable equality; any missing-marker encoding
present in the raw values is an ordinary value, no null handling). -/
theorem cat_var_count_is_distinct_card {α : Type} [DecidableEq α]
    (df : Table α) (cols : List String) (rs : List (CatRow α))
    (h : cat_var df cols = some rs) (c : String) (hc : c ∈ cols)
    (v : List α) (hv : colGet df c = some v) :
    ∃ r, r ∈ rs ∧ r.categorical_variable = c ∧
      r.number_of_possible_values = v.toFinset.card := by
  rcases cat_var_eq_some h with ⟨rs0, hb, rfl⟩
  refine ⟨{ categorical_variable := c,
            number_of_possible_values := (unique v).length,
            values := unique v }, ?_, rfl, length_unique_eq_card v⟩
  rw [mem_sorted_iff]
  exact buildRows_exists_row df cols rs0 hb c hc v hv

/-- Witness for C2: in the example scenario, the row for column odor
reports the number of distinct raw values of that column, namely 3. -/
theorem cat_var_count_is_distinct_card_witness :
    ∃ r, r ∈ rsEx ∧ r.categorical_variable = "odor" ∧
      r.number_of_possible_values = (['n', 'f', 'n', 'y'] : List Char).toFinset.card :=
  cat_var_count_is_distinct_card dfEx colsEx rsEx (by decide) "odor" (by decide)
    ['n', 'f', 'n', 'y'] (by decide)

/-- C3: the sequence returned by cat_var is sorted by distinct-value count
in descending order: every row's count is at least the next row's count. -/
theorem cat_var_sorted_descending {α : Type} [DecidableEq α]
    (df : Table α) (cols : List String) (rs : List (CatRow α))
    (h : cat_var df cols = some rs) (i : Nat) (h2 : i + 1 < rs.length) :
    (rs.get ⟨i + 1, h2⟩).number_of_possible_values ≤
      (rs.get ⟨i, Nat.lt_of_succ_lt h2⟩).number_of_possible_values := by
  rcases cat_var_eq_some h with ⟨rs0, _, rfl⟩
  have hsorted : (List.insertionSort rowGe rs0).Pairwise (@rowGe α) :=
    List.sorted_insertionSort rowGe rs0
  exact List.pairwise_iff_get.mp hsorted ⟨i, Nat.lt_of_succ_lt h2⟩ ⟨i + 1, h2⟩
    (Nat.lt_succ_self i)

/-- Witness for C3 at the example scenario, adjacent pair at index 0:
the bruises count 2 is at most the odor count 3. -/
theorem cat_var_sorted_descending_witness :
    (rsEx.get ⟨1, by decide⟩).number_of_possible_values ≤
      (rsEx.get ⟨0, by decide⟩).number_of_possible_values :=
  cat_var_sorted_descending dfEx colsEx rsEx (by decide) 0 (by decide)

/-- C5: if some requested name is absent from the table, cat_var fails
with the lookup error and returns no partial result: the whole call is
none, never a shorter row sequence with the missing column omitted. -/
theorem cat_var_missing_column_fails {α : Type} [DecidableEq α]
    (df : Table α) (cols : List String) (c : String)
    (hc : c ∈ cols) (habsent : colGet df c = none) :
    cat_var df cols = none := by
  rw [cat_var, buildRows_none_of_missing df cols c hc habsent]
  rfl

/-- Witness for C5: requesting the absent column smell on the example
table yields the failure, not a partial summary. -/
theorem cat_var_missing_column_fails_witness :
    cat_var dfEx ["odor", "smell"] = none :=
  cat_var_missing_column_fails dfEx ["odor", "smell"] "smell" (by decide) (by decide)

/-- C9: in every row cat_var returns, the reported count equals the size of
that row's list of values: the count and the listed distinct values are
mutually consistent. -/
theorem cat_var_count_matches_values {α : Type} [DecidableEq α]
    (df : Table α) (cols : List String) (rs : List (CatRow α))
    (h : cat_var df cols = some rs) (r : CatRow α) (hr : r ∈ rs) :
    r.number_of_possible_values = r.values.length := by
  rcases cat_var_eq_some h with ⟨rs0, hb, rfl⟩
  rcases buildRows_mem df cols rs0 hb r ((mem_sorted_iff rs0 r).mp hr) with
    ⟨_, v, _, hcount, hvals⟩
  rw [hcount, hvals]

/-- Witness for C9 at the first row of the example scenario's summary. -/
theorem cat_var_count_matches_values_witness :
    ({ categorical_variable := "odor", number_of_possible_values := 3,
       values := ['n', 'f', 'y'] } : CatRow Char).number_of_possible_values =
      ({ categorical_variable := "odor", number_of_possible_values := 3,
         values := ['n', 'f', 'y'] } : CatRow Char).values.length :=
  cat_var_count_matches_values dfEx colsEx rsEx (by decide) _ (by decide)

/-- C6: cat_var is pure: a call modelled in state-passing form leaves the
caller-owned table and column list exactly as they were and produces its
result fresh from them, mutating no external state. -/
theorem cat_var_no_side_effects {α : Type} [DecidableEq α]
    (df : Table α) (cols : List String) :
    (cat_var_call df cols).1 = (df, cols) ∧
      (cat_var_call df cols).2 = cat_var df cols :=
  ⟨rfl, rfl⟩

/-- C7: cat_var is deterministic: a second call made on the state left by
a first call with identical inputs yields the identical output; no hidden
state influences the result between the calls. -/
theorem cat_var_deterministic {α : Type} [DecidableEq α]
    (df : Table α) (cols : List String) :
    (cat_var_call (cat_var_call df cols).1.1 (cat_var_call df cols).1.2).2 =
      (cat_var_call df cols).2 :=
  rfl

/-- C8: ordinal_encoding maps the missing marker to the sentinel 27 and
each lowercase letter, code point 97 + i for i below 26, to its alphabetic
position i + 1, ranging over 1 to 26. -/
theorem ordinal_encoding_letters_and_marker :
    ordinal_encoding '?' = 27 ∧
      ∀ i : Fin 26, ordinal_encoding (Char.ofNat (97 + i.val)) = (i.val : Int) + 1 := by
  decide

/-- C10: ordinal_encoding is total on characters and its sentinel is not
unique: every character other than the marker yields its code point minus
96 without failing, so out-of-range inputs silently yield values outside
1 to 27 (the uppercase letter A yields -31, the character of code point 96
yields 0), and the character of code point 123 yields the same sentinel 27
as the marker while being a different character. -/
theorem ordinal_encoding_total_with_sentinel_clash :
    (∀ x : Char, x ≠ '?' → ordinal_encoding x = (x.toNat : Int) - 96) ∧
      ordinal_encoding (Char.ofNat 123) = 27 ∧ Char.ofNat 123 ≠ '?' ∧
      ordinal_encoding 'A' = -31 ∧ ordinal_encoding (Char.ofNat 96) = 0 := by
  refine ⟨fun x hx => ?_, by decide, by decide, by decide, by decide⟩
  rw [ordinal_encoding, if_neg hx]

/-- Witness for C10 at the uppercase letter A, which is not the marker. -/
theorem ordinal_encoding_total_with_sentinel_clash_witness :
    ordinal_encoding 'A' = (('A'.toNat : Int) - 96) :=
  ordinal_encoding_total_with_sentinel_clash.1 'A' (by decide)
